import Mathlib

/-
Shallow embedding of the ffmpeg-worker-fastify video-cut worker.

The repository contains several near-duplicate worker variants:
  * the "precise cut" variant (src/index.ts, first part): findFirstWordAtOrAfter,
    findLastWordAtOrBefore, calculateSafeStartPoint, calculateSafeEndPoint,
    an SRT caption generator and an anchor check that throws;
  * the "loose cut" variant (src/index.ts, second part): fixed pads
    PAD_START = 0.10 / PAD_END = 0.25;
  * the "word snap" variant (src/index.ts, third part): findExactWordStart,
    findExactWordEnd plus SAFE_START / SAFE_END pads 0.10 / 0.15;
  * the karaoke (.ass) caption variants (src/unnamed/part_001, part_002,
    part_004): 25-character grouping with 0.5 s pause breaks and per-word
    round((end - start) * 100) karaoke tags;
  * the progress-reporting variant (src/unnamed/part_004): stderr time
    parsing, throttled callbacks, download 50-55, render 55-95, upload 95.

All time arithmetic is embedded over the rationals.  Word text is kept as
a Lean String; only its length matters for the grouping logic.
-/

/-- A transcript word: `{start, end, word}` in the TypeScript sources.
`end` is a Lean keyword, so the field is called `endTime`. -/
structure Word where
  start : ℚ
  endTime : ℚ
  word : String
  deriving DecidableEq, Repr

/-- Placeholder used for (unreachable) out-of-bounds list reads, mirroring
the JS `undefined` that the code never actually hits. -/
def defaultWord : Word := ⟨0, 0, ""⟩

/- ----------------------------------------------------------------
   Word-snap variant (src/index.ts, third part, lines 540-580):
   findExactWordStart / findExactWordEnd.
   ---------------------------------------------------------------- -/

/-- `findExactWordStart` from the word-snap variant: the first word whose
`[start, end]` interval contains the target, else the first word starting
strictly after the target, else the target itself. -/
def findExactWordStart (targetTime : ℚ) (words : List Word) : ℚ :=
  if words.isEmpty then targetTime
  else
    match words.find? (fun w => decide (w.start ≤ targetTime) && decide (targetTime ≤ w.endTime)) with
    | some m => m.start
    | none =>
      match words.find? (fun w => decide (targetTime < w.start)) with
      | some n => n.start
      | none => targetTime

/-- `findExactWordEnd` from the word-snap variant: the first word whose
interval contains the target, else the last word ending strictly before
the target, else the target itself. -/
def findExactWordEnd (targetTime : ℚ) (words : List Word) : ℚ :=
  if words.isEmpty then targetTime
  else
    match words.find? (fun w => decide (w.start ≤ targetTime) && decide (targetTime ≤ w.endTime)) with
    | some m => m.endTime
    | none =>
      match (words.filter (fun w => decide (w.endTime < targetTime))).getLast? with
      | some p => p.endTime
      | none => targetTime

/-- `SAFE_START = Math.max(0, start - 0.10)` from the word-snap `runFFmpeg`. -/
def wordSnapSafeStart (s : ℚ) : ℚ := max 0 (s - 1/10)

/-- `SAFE_END = end + 0.15` from the word-snap `runFFmpeg`. -/
def wordSnapSafeEnd (e : ℚ) : ℚ := e + 3/20

/-- The word list of the spec's worked example: `{9.8, 10.3, "hello"}`,
`{10.3, 10.9, "world"}`, `{14.7, 15.2, "end"}`. -/
def c1Words : List Word :=
  [⟨49/5, 103/10, "hello"⟩, ⟨103/10, 109/10, "world"⟩, ⟨147/10, 76/5, "end"⟩]

/- ----------------------------------------------------------------
   Precise-cut variant (src/index.ts, first part, lines 84-147):
   sort by start, anchor finders, safe cut points, and the handler's
   anchor check that throws.
   ---------------------------------------------------------------- -/

/-- `[...words].sort((a, b) => a.start - b.start)`: a stable sort by start. -/
def sortByStart (words : List Word) : List Word :=
  words.mergeSort (fun a b => decide (a.start ≤ b.start))

/-- JS `Array.prototype.findIndex`: index of the first match, `-1` if none. -/
def jsFindIndex (p : Word → Bool) (l : List Word) : Int :=
  match l.findIdx? p with
  | some i => (i : Int)
  | none => -1

/-- `findFirstWordAtOrAfter`: first word (in start order) starting at or
after the target minus the 0.05 s tolerance, `null` if none. -/
def findFirstWordAtOrAfter (targetTime : ℚ) (words : List Word) : Option Word :=
  if words.isEmpty then none
  else (sortByStart words).find? (fun w => decide (targetTime - 1/20 ≤ w.start))

/-- `findLastWordAtOrBefore`: last word (in start order) ending at or
before the target plus the 0.05 s tolerance, `null` if none. -/
def findLastWordAtOrBefore (targetTime : ℚ) (words : List Word) : Option Word :=
  if words.isEmpty then none
  else ((sortByStart words).filter (fun w => decide (w.endTime ≤ targetTime + 1/20))).getLast?

/-- `calculateSafeStartPoint`: middle of the silence before the anchor,
but never more than 0.3 s before it, clamped at 0. -/
def calculateSafeStartPoint (firstWord : Word) (words : List Word) : ℚ :=
  let sorted := sortByStart words
  let idx := jsFindIndex (fun w => decide (w.start = firstWord.start)) sorted
  if idx ≤ 0 then max 0 (firstWord.start - 3/20)
  else
    let prevWord := sorted.getD (idx - 1).toNat defaultWord
    let silenceGap := firstWord.start - prevWord.endTime
    let midSilence := prevWord.endTime + silenceGap / 2
    let maxBuffer := firstWord.start - 3/10
    max (max midSilence maxBuffer) 0

/-- `calculateSafeEndPoint`: middle of the silence after the anchor, but
never more than 0.3 s after it. -/
def calculateSafeEndPoint (lastWord : Word) (words : List Word) : ℚ :=
  let sorted := sortByStart words
  let idx := jsFindIndex (fun w => decide (w.start = lastWord.start)) sorted
  if idx = -1 ∨ (sorted.length : Int) - 1 ≤ idx then lastWord.endTime + 1/5
  else
    let nextWord := sorted.getD (idx + 1).toNat defaultWord
    let silenceGap := nextWord.start - lastWord.endTime
    let midSilence := lastWord.endTime + silenceGap / 2
    let maxBuffer := lastWord.endTime + 3/10
    min midSilence maxBuffer

/-- The `/process-video` handler's anchor step: throws
(`Nao foi possivel alinhar com palavras`) when either anchor is missing,
otherwise resolves the safe cut points. -/
def resolveAnchors (rawStart rawEnd : ℚ) (words : List Word) : Except String (ℚ × ℚ) :=
  match findFirstWordAtOrAfter rawStart words, findLastWordAtOrBefore rawEnd words with
  | some firstWord, some lastWord =>
      Except.ok (calculateSafeStartPoint firstWord words, calculateSafeEndPoint lastWord words)
  | _, _ => Except.error "Nao foi possivel alinhar com palavras"

/- ----------------------------------------------------------------
   Caption generators.
   SRT: src/index.ts first part (clamped offsets, drop when
   relEnd <= relStart) and src/unnamed/part_002 first part (unclamped
   offsets, drop when either offset is negative).
   ASS karaoke: src/unnamed/part_001 / part_002 second part / part_004
   (25-character grouping, 0.5 s pause breaks, per-word
   round((end - start) * 100) tags).
   ---------------------------------------------------------------- -/

/-- One SRT block: sequence number, relative offsets, text. -/
structure SrtCue where
  num : ℕ
  relStart : ℚ
  relEnd : ℚ
  text : String
  deriving DecidableEq, Repr

/-- `generateSubtitleFile` of the precise-cut variant: offsets clamped at
0, block dropped when `relEnd <= relStart`, numbered `index + 1`. -/
def generateSrtCues (words : List Word) (videoStartTime : ℚ) : List SrtCue :=
  words.enum.filterMap (fun p =>
    if max 0 (p.2.endTime - videoStartTime) ≤ max 0 (p.2.start - videoStartTime) then none
    else some ⟨p.1 + 1, max 0 (p.2.start - videoStartTime),
      max 0 (p.2.endTime - videoStartTime), p.2.word⟩)

/-- `generateSubtitleFile` of src/unnamed/part_002: unclamped offsets,
block dropped when either offset is negative, numbered `index + 1`. -/
def generateSrtCues002 (words : List Word) (cutStartTime : ℚ) : List SrtCue :=
  words.enum.filterMap (fun p =>
    if p.2.start - cutStartTime < 0 ∨ p.2.endTime - cutStartTime < 0 then none
    else some ⟨p.1 + 1, p.2.start - cutStartTime, p.2.endTime - cutStartTime, p.2.word⟩)

/-- The karaoke grouping loop of the .ass `generateSubtitleFile`:
`prev` is `words[i-1]` of the original array (even when that word was
skipped), `group`/`charCount` mirror `currentGroup`/`currentCharCount`;
`flushGroup` emits the group only when it is nonempty. -/
def assGroupsGo (cut : ℚ) : List Word → Option Word → List Word → ℕ → List (List Word)
  | [], _, group, _ => if group.isEmpty then [] else [group]
  | w :: rest, prev, group, charCount =>
    if w.endTime < cut then assGroupsGo cut rest (some w) group charCount
    else
      let isBigGap := match prev with
        | some p => decide (1/2 < w.start - p.endTime)
        | none => false
      if 25 < charCount + w.word.length ∨ isBigGap = true then
        (if group.isEmpty then [] else [group]) ++
          assGroupsGo cut rest (some w) [w] (w.word.length + 1)
      else
        assGroupsGo cut rest (some w) (group ++ [w]) (charCount + w.word.length + 1)

/-- The cue groups produced for a word list and cut start. -/
def assGroups (words : List Word) (cut : ℚ) : List (List Word) :=
  assGroupsGo cut words none [] 0

/-- One karaoke `Dialogue` line: clamped start/end offsets plus the words
of its group (whose tags form the per-word reveal markers). -/
structure AssCue where
  startOffset : ℚ
  endOffset : ℚ
  group : List Word
  deriving DecidableEq, Repr

/-- `flushGroup`: `startSeconds = max(0, first.start - cut)`,
`endSeconds = max(0, last.end - cut)`. -/
def assCueOfGroup (cut : ℚ) (g : List Word) : AssCue :=
  ⟨max 0 ((g.headD defaultWord).start - cut),
    max 0 ((g.getLastD defaultWord).endTime - cut), g⟩

/-- The .ass caption track for a word list and cut start. -/
def generateAssCues (words : List Word) (cut : ℚ) : List AssCue :=
  (assGroups words cut).map (assCueOfGroup cut)

/-- The karaoke tag of one word: `Math.round((w.end - w.start) * 100)`
centiseconds. -/
def kTag (w : Word) : ℤ := round ((w.endTime - w.start) * 100)

/-- Sum of the karaoke tags over a cue's group. -/
def sumKTags (g : List Word) : ℤ := (g.map kTag).sum

/-- Rendered text length of a karaoke group: word lengths plus single
separating spaces. -/
def groupTextLength (g : List Word) : ℕ :=
  (g.map (fun w => w.word.length)).sum + (g.length - 1)

/-- The gap test `prevWord && (w.start - prevWord.end > 0.5)` of the
grouping loop. -/
def bigGap (prev : Option Word) (w : Word) : Bool :=
  match prev with
  | some p => decide (1/2 < w.start - p.endTime)
  | none => false

/-- Word list showing non-consecutive SRT numbering in the precise-cut
variant: words 1 and 3 are dropped, so the emitted numbers are 2 and 4. -/
def c10Words : List Word :=
  [⟨0, 0, "x"⟩, ⟨0, 1, "a"⟩, ⟨5, 5, "y"⟩, ⟨5, 6, "b"⟩]

/-- Word list showing non-consecutive numbering in the part_002 variant at
`cutStart = 3`: words 1 and 3 have a negative offset and are dropped. -/
def c10Words002 : List Word :=
  [⟨1, 2, "x"⟩, ⟨3, 4, "a"⟩, ⟨2, 6, "y"⟩, ⟨4, 5, "b"⟩]

/- ----------------------------------------------------------------
   Subtitle-path escaping (runFFmpeg of every captioned variant):
   subtitlePath.replace(backslash -> '/').replace(':' -> backslash-colon).
   ---------------------------------------------------------------- -/

/-- First replace: every backslash becomes a forward slash. -/
def escapeBackslashes (s : List Char) : List Char :=
  s.map (fun ch => if ch = '\\' then '/' else ch)

/-- Second replace: every colon becomes a backslash-colon pair. -/
def escapeColons (s : List Char) : List Char :=
  (s.map (fun ch => if ch = ':' then ['\\', ':'] else [ch])).flatten

/-- `escapedPath` as built in `runFFmpeg`. -/
def escapedPath (s : List Char) : List Char := escapeColons (escapeBackslashes s)

/-- Reversal of the colon-escape rule (the spec's unescape direction):
every backslash-colon pair becomes a colon again. -/
def unescapeColons : List Char → List Char
  | [] => []
  | [ch] => [ch]
  | ch1 :: ch2 :: rest =>
    if ch1 = '\\' ∧ ch2 = ':' then ':' :: unescapeColons rest
    else ch1 :: unescapeColons (ch2 :: rest)

/- ----------------------------------------------------------------
   Progress reporting (src/unnamed/part_004): download loop, ffmpeg
   stderr time parsing, throttling, and stage-to-global mapping
   (download 50-55, render 55-95, upload fixed at 95).
   ---------------------------------------------------------------- -/

/-- `timeToSeconds` on the parsed `HH:MM:SS.ff` components. -/
def timeToSeconds (h m s : ℚ) : ℚ := h * 3600 + m * 60 + s

/-- Download loop of `downloadFile`: accumulates chunk lengths; when the
`content-length` total is nonzero, reports the raw percentage whenever it
exceeds the last report by more than 10 points.  The raw percentage is NOT
clamped. -/
def downloadEmitsGo (total : ℚ) : List ℕ → ℚ → ℚ → List ℚ
  | [], _, _ => []
  | len :: rest, downloaded, lastReport =>
    if total ≠ 0 then
      if 10 < (downloaded + len) / total * 100 - lastReport then
        (downloaded + len) / total * 100 ::
          downloadEmitsGo total rest (downloaded + len) ((downloaded + len) / total * 100)
      else downloadEmitsGo total rest (downloaded + len) lastReport
    else downloadEmitsGo total rest (downloaded + len) lastReport

/-- Raw download percentages reported for a chunk sequence. -/
def downloadEmits (chunks : List ℕ) (total : ℚ) : List ℚ :=
  downloadEmitsGo total chunks 0 0

/-- The handler's download mapping: `50 + (pct / 100) * 5`. -/
def downloadGlobal (pct : ℚ) : ℚ := 50 + pct / 100 * 5

/-- Render loop of `runFFmpeg`: for each parsed time value the raw
percentage is `Math.min(100, t / duration * 100)`, reported when it
exceeds the last report by more than 5 points. -/
def renderEmitsGo (duration : ℚ) : List ℚ → ℚ → List ℚ
  | [], _ => []
  | t :: rest, lastReport =>
    if 5 < min 100 (t / duration * 100) - lastReport then
      min 100 (t / duration * 100) ::
        renderEmitsGo duration rest (min 100 (t / duration * 100))
    else renderEmitsGo duration rest lastReport

/-- Raw render percentages reported for a parsed-time sequence. -/
def renderEmits (times : List ℚ) (duration : ℚ) : List ℚ :=
  renderEmitsGo duration times 0

/-- The handler's render mapping: `55 + (pct / 100) * 40`. -/
def renderGlobal (pct : ℚ) : ℚ := 55 + pct / 100 * 40

/- ----------------------------------------------------------------
   Loose-cut variant (src/index.ts, second part, lines 386-403).
   ---------------------------------------------------------------- -/

/-- `finalStart = Math.max(0, reqStart - PAD_START)` with
`PAD_START = 0.10`. -/
def looseCutFinalStart (reqStart : ℚ) : ℚ := max 0 (reqStart - 1/10)

/-- `finalDuration = reqDuration + (reqStart - finalStart) + PAD_END` with
`PAD_END = 0.25`. -/
def looseCutFinalDuration (reqStart reqDuration : ℚ) : ℚ :=
  reqDuration + (reqStart - looseCutFinalStart reqStart) + 1/4

/- Theorems. -/

/- Helper lemmas about `find?` and `filter.getLast?` on lists that are
sorted by the relevant key. -/

theorem find?_start_min {p : Word → Bool} {l : List Word}
    (hs : l.Pairwise (fun a b => a.start ≤ b.start)) {w : Word}
    (h : l.find? p = some w) : ∀ v ∈ l, p v → w.start ≤ v.start := by
  induction l with
  | nil => simp at h
  | cons a rest ih =>
    rw [List.find?_cons] at h
    rcases hp : p a with _ | _
    · rw [hp] at h
      simp only [cond_false] at h
      intro v hv hpv
      rcases List.mem_cons.mp hv with rfl | hv'
      · rw [hp] at hpv; exact absurd hpv (by simp)
      · exact ih (List.Pairwise.of_cons hs) h v hv' hpv
    · rw [hp] at h
      simp only [cond_true, Option.some.injEq] at h
      subst h
      intro v hv _
      rcases List.mem_cons.mp hv with rfl | hv'
      · exact le_refl _
      · exact (List.pairwise_cons.mp hs).1 v hv'

theorem filter_getLast?_endTime_max {p : Word → Bool} {l : List Word}
    (hs : l.Pairwise (fun a b => a.endTime ≤ b.endTime)) {w : Word}
    (h : (l.filter p).getLast? = some w) :
    w ∈ l ∧ p w ∧ ∀ v ∈ l, p v → v.endTime ≤ w.endTime := by
  induction l with
  | nil => simp at h
  | cons a rest ih =>
    rw [List.filter_cons] at h
    by_cases hpa : p a
    · rw [if_pos hpa] at h
      rcases hrest : rest.filter p with _ | ⟨b, tl⟩
      · rw [hrest] at h
        simp only [List.getLast?_singleton, Option.some.injEq] at h
        subst h
        refine ⟨List.mem_cons_self _ _, hpa, ?_⟩
        intro v hv hpv
        rcases List.mem_cons.mp hv with rfl | hv'
        · exact le_refl _
        · exact absurd (List.mem_filter.mpr ⟨hv', hpv⟩) (by rw [hrest]; simp)
      · rw [hrest, List.getLast?_cons_cons, ← hrest] at h
        obtain ⟨hw1, hw2, hw3⟩ := ih (List.Pairwise.of_cons hs) h
        refine ⟨List.mem_cons_of_mem _ hw1, hw2, ?_⟩
        intro v hv hpv
        rcases List.mem_cons.mp hv with rfl | hv'
        · exact (List.pairwise_cons.mp hs).1 w hw1
        · exact hw3 v hv' hpv
    · rw [if_neg hpa] at h
      obtain ⟨hw1, hw2, hw3⟩ := ih (List.Pairwise.of_cons hs) h
      refine ⟨List.mem_cons_of_mem _ hw1, hw2, ?_⟩
      intro v hv hpv
      rcases List.mem_cons.mp hv with rfl | hv'
      · exact absurd hpv hpa
      · exact hw3 v hv' hpv

theorem eval_c1_start : findExactWordStart 10 c1Words = 49/5 := by
  norm_num [findExactWordStart, c1Words, List.find?]

theorem eval_c1_end : findExactWordEnd 15 c1Words = 76/5 := by
  norm_num [findExactWordEnd, c1Words, List.find?, List.filter]

theorem findExactWordStart_of_containing {t : ℚ} {words : List Word} {m : Word}
    (h : words.find? (fun w => decide (w.start ≤ t) && decide (t ≤ w.endTime)) = some m) :
    findExactWordStart t words = m.start := by
  cases words with
  | nil => simp at h
  | cons a l => simp [findExactWordStart, h]

theorem findExactWordStart_of_next {t : ℚ} {words : List Word} {n : Word}
    (h0 : words.find? (fun w => decide (w.start ≤ t) && decide (t ≤ w.endTime)) = none)
    (h : words.find? (fun w => decide (t < w.start)) = some n) :
    findExactWordStart t words = n.start := by
  cases words with
  | nil => simp at h
  | cons a l => simp [findExactWordStart, h0, h]

theorem findExactWordStart_of_none {t : ℚ} {words : List Word}
    (h0 : words.find? (fun w => decide (w.start ≤ t) && decide (t ≤ w.endTime)) = none)
    (h : words.find? (fun w => decide (t < w.start)) = none) :
    findExactWordStart t words = t := by
  cases words with
  | nil => simp [findExactWordStart]
  | cons a l => simp [findExactWordStart, h0, h]

theorem findExactWordEnd_of_containing {t : ℚ} {words : List Word} {m : Word}
    (h : words.find? (fun w => decide (w.start ≤ t) && decide (t ≤ w.endTime)) = some m) :
    findExactWordEnd t words = m.endTime := by
  cases words with
  | nil => simp at h
  | cons a l => simp [findExactWordEnd, h]

theorem findExactWordEnd_of_prev {t : ℚ} {words : List Word} {p : Word}
    (h0 : words.find? (fun w => decide (w.start ≤ t) && decide (t ≤ w.endTime)) = none)
    (h : (words.filter (fun w => decide (w.endTime < t))).getLast? = some p) :
    findExactWordEnd t words = p.endTime := by
  cases words with
  | nil => simp at h
  | cons a l => simp [findExactWordEnd, h0, h]

theorem findExactWordEnd_of_none {t : ℚ} {words : List Word}
    (h0 : words.find? (fun w => decide (w.start ≤ t) && decide (t ≤ w.endTime)) = none)
    (h : (words.filter (fun w => decide (w.endTime < t))).getLast? = none) :
    findExactWordEnd t words = t := by
  cases words with
  | nil => simp [findExactWordEnd]
  | cons a l => simp [findExactWordEnd, h0, h]

/-- Claim C1 counterexample: on the spec's own example (window `[10, 15]`,
words hello/world/end), `rawStart = 10` lies inside hello's interval
`[9.8, 10.3]`, so the code snaps the start to `9.8` and pads it to `9.7`;
the padded start is half a second away from the claimed `≈ 10.2`, while the
padded end is `15.35` as claimed. -/
theorem exactWordSnap_example_start_is_9_7 :
    wordSnapSafeStart (findExactWordStart 10 c1Words) = 97/10 ∧
    ¬ |wordSnapSafeStart (findExactWordStart 10 c1Words) - 51/5| ≤ 1/4 ∧
    wordSnapSafeEnd (findExactWordEnd 15 c1Words) = 307/20 := by
  rw [eval_c1_start, eval_c1_end]
  norm_num [wordSnapSafeStart, wordSnapSafeEnd, abs_sub_lt_iff]
  rw [abs_of_nonneg (by norm_num : (0:ℚ) ≤ 1/2)]
  norm_num

/-- Claim C1 (amended): for a word timeline sorted by start and end, the
exact word-snap strategy resolves the start to the start of a word whose
`[start, end]` interval contains `rawStart`, else to the start of the next
word (minimal start) strictly after `rawStart`, else to `rawStart`; mirrors
this for `rawEnd` using the containing word's end, else the nearest
preceding word's end, else `rawEnd`; the fixed pads subtract 0.10 s
(clamped at 0) and add 0.15 s.  On the spec's example the padded resolved
start is `9.7` (hello's start minus the pad, since `10.0` lies inside
hello), not `≈ 10.2`; the padded resolved end is `15.35`. -/
theorem exactWordSnap_resolution (words : List Word) (rawStart rawEnd : ℚ)
    (hs : words.Pairwise (fun a b => a.start ≤ b.start ∧ a.endTime ≤ b.endTime)) :
    ((∃ w ∈ words, w.start ≤ rawStart ∧ rawStart ≤ w.endTime) →
        ∃ v ∈ words, v.start ≤ rawStart ∧ rawStart ≤ v.endTime ∧
          findExactWordStart rawStart words = v.start) ∧
    ((∀ w ∈ words, ¬(w.start ≤ rawStart ∧ rawStart ≤ w.endTime)) →
        ((∃ w ∈ words, rawStart < w.start) →
            ∃ v ∈ words, rawStart < v.start ∧ findExactWordStart rawStart words = v.start ∧
              ∀ u ∈ words, rawStart < u.start → v.start ≤ u.start) ∧
        ((∀ w ∈ words, ¬ rawStart < w.start) → findExactWordStart rawStart words = rawStart)) ∧
    ((∃ w ∈ words, w.start ≤ rawEnd ∧ rawEnd ≤ w.endTime) →
        ∃ v ∈ words, v.start ≤ rawEnd ∧ rawEnd ≤ v.endTime ∧
          findExactWordEnd rawEnd words = v.endTime) ∧
    ((∀ w ∈ words, ¬(w.start ≤ rawEnd ∧ rawEnd ≤ w.endTime)) →
        ((∃ w ∈ words, w.endTime < rawEnd) →
            ∃ v ∈ words, v.endTime < rawEnd ∧ findExactWordEnd rawEnd words = v.endTime ∧
              ∀ u ∈ words, u.endTime < rawEnd → u.endTime ≤ v.endTime) ∧
        ((∀ w ∈ words, ¬ w.endTime < rawEnd) → findExactWordEnd rawEnd words = rawEnd)) ∧
    (∀ s, wordSnapSafeStart s = max 0 (s - 1/10)) ∧
    (∀ e, wordSnapSafeEnd e = e + 3/20) ∧
    wordSnapSafeStart (findExactWordStart 10 c1Words) = 97/10 ∧
    wordSnapSafeEnd (findExactWordEnd 15 c1Words) = 307/20 := by
  have hsStart : words.Pairwise (fun a b => a.start ≤ b.start) :=
    hs.imp (fun h => h.1)
  have hsEnd : words.Pairwise (fun a b => a.endTime ≤ b.endTime) :=
    hs.imp (fun h => h.2)
  refine ⟨?_, ?_, ?_, ?_, fun s => rfl, fun e => rfl, ?_, ?_⟩
  · intro hex
    have hsome : (words.find? (fun w =>
        decide (w.start ≤ rawStart) && decide (rawStart ≤ w.endTime))).isSome := by
      rw [List.find?_isSome]
      obtain ⟨w, hw, h1, h2⟩ := hex
      exact ⟨w, hw, by simp [h1, h2]⟩
    obtain ⟨m, hm⟩ := Option.isSome_iff_exists.mp hsome
    have hmem := List.mem_of_find?_eq_some hm
    have hpm := List.find?_some hm
    simp only [Bool.and_eq_true, decide_eq_true_eq] at hpm
    exact ⟨m, hmem, hpm.1, hpm.2, findExactWordStart_of_containing hm⟩
  · intro hno
    have h0 : words.find? (fun w =>
        decide (w.start ≤ rawStart) && decide (rawStart ≤ w.endTime)) = none := by
      rw [List.find?_eq_none]
      intro w hw
      simpa using hno w hw
    constructor
    · intro hex
      have hsome : (words.find? (fun w => decide (rawStart < w.start))).isSome := by
        rw [List.find?_isSome]
        obtain ⟨w, hw, h1⟩ := hex
        exact ⟨w, hw, by simp [h1]⟩
      obtain ⟨n, hn⟩ := Option.isSome_iff_exists.mp hsome
      have hmem := List.mem_of_find?_eq_some hn
      have hpn := List.find?_some hn
      simp only [decide_eq_true_eq] at hpn
      refine ⟨n, hmem, hpn, findExactWordStart_of_next h0 hn, ?_⟩
      intro u hu hu'
      exact find?_start_min hsStart hn u hu (by simp [hu'])
    · intro hnone
      have h1 : words.find? (fun w => decide (rawStart < w.start)) = none := by
        rw [List.find?_eq_none]
        intro w hw
        simpa using hnone w hw
      exact findExactWordStart_of_none h0 h1
  · intro hex
    have hsome : (words.find? (fun w =>
        decide (w.start ≤ rawEnd) && decide (rawEnd ≤ w.endTime))).isSome := by
      rw [List.find?_isSome]
      obtain ⟨w, hw, h1, h2⟩ := hex
      exact ⟨w, hw, by simp [h1, h2]⟩
    obtain ⟨m, hm⟩ := Option.isSome_iff_exists.mp hsome
    have hmem := List.mem_of_find?_eq_some hm
    have hpm := List.find?_some hm
    simp only [Bool.and_eq_true, decide_eq_true_eq] at hpm
    exact ⟨m, hmem, hpm.1, hpm.2, findExactWordEnd_of_containing hm⟩
  · intro hno
    have h0 : words.find? (fun w =>
        decide (w.start ≤ rawEnd) && decide (rawEnd ≤ w.endTime)) = none := by
      rw [List.find?_eq_none]
      intro w hw
      simpa using hno w hw
    constructor
    · intro hex
      obtain ⟨w, hw, h1⟩ := hex
      have hmemf : w ∈ words.filter (fun w => decide (w.endTime < rawEnd)) :=
        List.mem_filter.mpr ⟨hw, by simp [h1]⟩
      have hne : words.filter (fun w => decide (w.endTime < rawEnd)) ≠ [] :=
        List.ne_nil_of_mem hmemf
      obtain ⟨p, hp⟩ := Option.isSome_iff_exists.mp
        (List.getLast?_isSome.mpr hne)
      obtain ⟨hp1, hp2, hp3⟩ := filter_getLast?_endTime_max hsEnd hp
      simp only [decide_eq_true_eq] at hp2
      refine ⟨p, hp1, hp2, findExactWordEnd_of_prev h0 hp, ?_⟩
      intro u hu hu'
      exact hp3 u hu (by simp [hu'])
    · intro hnone
      have h1 : (words.filter (fun w => decide (w.endTime < rawEnd))).getLast? = none := by
        rw [List.getLast?_eq_none_iff]
        rw [List.filter_eq_nil_iff]
        intro w hw
        simpa using hnone w hw
      exact findExactWordEnd_of_none h0 h1
  · rw [eval_c1_start]; norm_num [wordSnapSafeStart]
  · rw [eval_c1_end]; norm_num [wordSnapSafeEnd]

/-- Witness for the amended C1 theorem at the spec's example input. -/
theorem exactWordSnap_resolution_witness :
    ∃ v ∈ c1Words, v.start ≤ (10:ℚ) ∧ (10:ℚ) ≤ v.endTime ∧
      findExactWordStart 10 c1Words = v.start := by
  have h := exactWordSnap_resolution c1Words 10 15
    (by norm_num [c1Words, List.pairwise_cons])
  exact h.1 ⟨⟨49/5, 103/10, "hello"⟩, by simp [c1Words], by norm_num, by norm_num⟩

/-- Claim C2 counterexample: a request window `[10, 15]` containing no
words (the only word lies at `[1, 2]`) makes the handler throw: the anchor
step returns an error, not a best-effort padded window.  The empty
timeline throws as well. -/
theorem resolveAnchors_throws_on_unanchored_window :
    (resolveAnchors 10 15 [⟨1, 2, "a"⟩]).isOk = false ∧
    (resolveAnchors 10 15 []).isOk = false := by
  constructor
  · norm_num [resolveAnchors, findFirstWordAtOrAfter, findLastWordAtOrBefore,
      sortByStart, List.find?, Except.isOk, Except.toBool]
  · norm_num [resolveAnchors, findFirstWordAtOrAfter, findLastWordAtOrBefore,
      Except.isOk, Except.toBool]

theorem mem_sortByStart {w : Word} {words : List Word} :
    w ∈ sortByStart words ↔ w ∈ words :=
  (List.mergeSort_perm words _).mem_iff

theorem findFirstWordAtOrAfter_isSome (t : ℚ) (words : List Word) :
    (findFirstWordAtOrAfter t words).isSome = true ↔
      ∃ w ∈ words, t - 1/20 ≤ w.start := by
  cases words with
  | nil => simp [findFirstWordAtOrAfter]
  | cons a l =>
    rw [findFirstWordAtOrAfter]
    simp only [List.isEmpty_cons, Bool.false_eq_true, if_false]
    rw [List.find?_isSome]
    constructor
    · rintro ⟨w, hw, hp⟩
      exact ⟨w, mem_sortByStart.mp hw, by simpa using hp⟩
    · rintro ⟨w, hw, hp⟩
      exact ⟨w, mem_sortByStart.mpr hw, by simpa using hp⟩

theorem findLastWordAtOrBefore_isSome (t : ℚ) (words : List Word) :
    (findLastWordAtOrBefore t words).isSome = true ↔
      ∃ w ∈ words, w.endTime ≤ t + 1/20 := by
  cases words with
  | nil => simp [findLastWordAtOrBefore]
  | cons a l =>
    rw [findLastWordAtOrBefore]
    simp only [List.isEmpty_cons, Bool.false_eq_true, if_false]
    rw [List.getLast?_isSome, ← List.length_pos_iff_ne_nil, List.length_pos_iff_exists_mem]
    constructor
    · rintro ⟨w, hw⟩
      obtain ⟨hw1, hw2⟩ := List.mem_filter.mp hw
      exact ⟨w, mem_sortByStart.mp hw1, by simpa using hw2⟩
    · rintro ⟨w, hw, hp⟩
      exact ⟨w, List.mem_filter.mpr ⟨mem_sortByStart.mpr hw, by simpa using hp⟩⟩

/-- Claim C2 (amended): the anchor step of the precise-cut handler throws
exactly when the timeline cannot anchor the window: it succeeds iff some
word starts at or after `rawStart - 0.05` and some word ends at or before
`rawEnd + 0.05`.  A window with no such words is rejected with an error
rather than resolved to a best-effort padded window. -/
theorem resolveAnchors_ok_iff (rawStart rawEnd : ℚ) (words : List Word) :
    (resolveAnchors rawStart rawEnd words).isOk = true ↔
      ((∃ w ∈ words, rawStart - 1/20 ≤ w.start) ∧
        (∃ w ∈ words, w.endTime ≤ rawEnd + 1/20)) := by
  rw [← findFirstWordAtOrAfter_isSome rawStart words,
      ← findLastWordAtOrBefore_isSome rawEnd words]
  cases hf : findFirstWordAtOrAfter rawStart words with
  | none => simp [resolveAnchors, hf, Except.isOk, Except.toBool]
  | some fw =>
    cases hl : findLastWordAtOrBefore rawEnd words with
    | none => simp [resolveAnchors, hf, hl, Except.isOk, Except.toBool]
    | some lw => simp [resolveAnchors, hf, hl, Except.isOk, Except.toBool]

theorem sortByStart_of_sorted {words : List Word}
    (h : words.Pairwise (fun a b => a.start ≤ b.start)) : sortByStart words = words :=
  List.mergeSort_of_sorted (h.imp (fun hab => by simpa using hab))

theorem findIdx?_split {p : Word → Bool} (l₁ : List Word) (x : Word) (l₂ : List Word)
    (h1 : ∀ y ∈ l₁, p y = false) (hx : p x = true) :
    ∀ i, List.findIdx? p (l₁ ++ x :: l₂) i = some (l₁.length + i) := by
  induction l₁ with
  | nil =>
    intro i
    simp [List.findIdx?_cons, hx]
  | cons a tl ih =>
    intro i
    rw [List.cons_append, List.findIdx?_cons,
      if_neg (by simp [h1 a (List.mem_cons_self a tl)])]
    rw [ih (fun y hy => h1 y (List.mem_cons_of_mem a hy)) (i + 1)]
    congr 1
    simp only [List.length_cons]
    omega

theorem getElem?_split (l₁ : List Word) (x : Word) (l₂ : List Word) :
    (l₁ ++ x :: l₂)[l₁.length]? = some x := by
  rw [List.getElem?_append_right (le_refl _)]
  simp

theorem getElem?_split_succ (l₁ : List Word) (x y : Word) (l₂ : List Word) :
    (l₁ ++ x :: y :: l₂)[l₁.length + 1]? = some y := by
  rw [List.getElem?_append_right (by omega)]
  simp

/-- Claim C8: on a sorted, non-overlapping word list, the silence-snap cut
points stay inside the inter-word silence gap: with a word preceding the
anchor, `calculateSafeStartPoint` lands in `[previousWord.end,
firstWord.start]`, and with a word following the anchor,
`calculateSafeEndPoint` lands in `[lastWord.end, nextWord.start]`.
Timestamps are nonnegative seconds, which the start bound uses. -/
theorem calcSafePoints_within_gap :
    (∀ (l₁ l₂ : List Word) (prevWord firstWord : Word),
      (l₁ ++ prevWord :: firstWord :: l₂).Pairwise (fun a b => a.start < b.start) →
      (l₁ ++ prevWord :: firstWord :: l₂).Chain' (fun a b => a.endTime ≤ b.start) →
      0 ≤ firstWord.start →
      prevWord.endTime ≤
          calculateSafeStartPoint firstWord (l₁ ++ prevWord :: firstWord :: l₂) ∧
        calculateSafeStartPoint firstWord (l₁ ++ prevWord :: firstWord :: l₂) ≤
          firstWord.start) ∧
    (∀ (l₁ l₂ : List Word) (lastWord nextWord : Word),
      (l₁ ++ lastWord :: nextWord :: l₂).Pairwise (fun a b => a.start < b.start) →
      (l₁ ++ lastWord :: nextWord :: l₂).Chain' (fun a b => a.endTime ≤ b.start) →
      lastWord.endTime ≤
          calculateSafeEndPoint lastWord (l₁ ++ lastWord :: nextWord :: l₂) ∧
        calculateSafeEndPoint lastWord (l₁ ++ lastWord :: nextWord :: l₂) ≤
          nextWord.start) := by
  constructor
  · intro l₁ l₂ prevWord firstWord hp hc hnn
    have hsort : sortByStart (l₁ ++ prevWord :: firstWord :: l₂) =
        l₁ ++ prevWord :: firstWord :: l₂ :=
      sortByStart_of_sorted (hp.imp le_of_lt)
    have hgap : prevWord.endTime ≤ firstWord.start := by
      obtain ⟨-, hc2, -⟩ := List.chain'_append.mp hc
      exact (List.chain'_cons.mp hc2).1
    have hfalse : ∀ y ∈ l₁ ++ [prevWord],
        (fun w => decide (w.start = firstWord.start)) y = false := by
      intro y hy
      rcases List.mem_append.mp hy with hy1 | hy2
      · obtain ⟨-, -, h3⟩ := List.pairwise_append.mp hp
        have := h3 y hy1 firstWord (by simp)
        simp [ne_of_lt this]
      · obtain ⟨-, hp2, -⟩ := List.pairwise_append.mp hp
        have := (List.pairwise_cons.mp hp2).1 firstWord (by simp)
        simp only [List.mem_singleton.mp hy2]
        simp [ne_of_lt this]
    have hidx : List.findIdx? (fun w => decide (w.start = firstWord.start))
        (l₁ ++ prevWord :: firstWord :: l₂) 0 = some (l₁.length + 1) := by
      have h := findIdx?_split (l₁ ++ [prevWord]) firstWord l₂ hfalse (by simp) 0
      simpa using h
    have hji : jsFindIndex (fun w => decide (w.start = firstWord.start))
        (l₁ ++ prevWord :: firstWord :: l₂) = (l₁.length : Int) + 1 := by
      rw [jsFindIndex, hidx]
      push_cast
      ring
    rw [calculateSafeStartPoint]
    simp only [hsort, hji]
    rw [if_neg (by omega)]
    have htn : (((l₁.length : Int) + 1) - 1).toNat = l₁.length := by omega
    rw [htn, List.getD_eq_getElem?_getD, getElem?_split, Option.getD_some]
    constructor
    · refine le_trans ?_ (le_max_left _ _)
      refine le_trans ?_ (le_max_left _ _)
      nlinarith [hgap]
    · refine max_le (max_le ?_ (by linarith)) hnn
      nlinarith [hgap]
  · intro l₁ l₂ lastWord nextWord hp hc
    have hsort : sortByStart (l₁ ++ lastWord :: nextWord :: l₂) =
        l₁ ++ lastWord :: nextWord :: l₂ :=
      sortByStart_of_sorted (hp.imp le_of_lt)
    have hgap : lastWord.endTime ≤ nextWord.start := by
      obtain ⟨-, hc2, -⟩ := List.chain'_append.mp hc
      exact (List.chain'_cons.mp hc2).1
    have hfalse : ∀ y ∈ l₁,
        (fun w => decide (w.start = lastWord.start)) y = false := by
      intro y hy
      obtain ⟨-, -, h3⟩ := List.pairwise_append.mp hp
      have := h3 y hy lastWord (by simp)
      simp [ne_of_lt this]
    have hidx : List.findIdx? (fun w => decide (w.start = lastWord.start))
        (l₁ ++ lastWord :: nextWord :: l₂) 0 = some l₁.length := by
      have h := findIdx?_split l₁ lastWord (nextWord :: l₂) hfalse (by simp) 0
      simpa using h
    have hji : jsFindIndex (fun w => decide (w.start = lastWord.start))
        (l₁ ++ lastWord :: nextWord :: l₂) = (l₁.length : Int) := by
      rw [jsFindIndex, hidx]
    rw [calculateSafeEndPoint]
    simp only [hsort, hji]
    rw [if_neg (by
      push_neg
      constructor
      · omega
      · simp only [List.length_append, List.length_cons]
        push_cast
        omega)]
    have htn : ((l₁.length : Int) + 1).toNat = l₁.length + 1 := by omega
    rw [htn, List.getD_eq_getElem?_getD, getElem?_split_succ, Option.getD_some]
    constructor
    · refine le_min (by nlinarith [hgap]) (by linarith)
    · refine le_trans (min_le_left _ _) ?_
      nlinarith [hgap]

/-- Witness for the C8 theorem: for the concrete sorted timeline
`[[1,2], [3,4]]` both safe points land inside the inter-word gap `[2, 3]`. -/
theorem calcSafePoints_within_gap_witness :
    ((2:ℚ) ≤ calculateSafeStartPoint ⟨3, 4, "b"⟩ [⟨1, 2, "a"⟩, ⟨3, 4, "b"⟩] ∧
      calculateSafeStartPoint ⟨3, 4, "b"⟩ [⟨1, 2, "a"⟩, ⟨3, 4, "b"⟩] ≤ 3) ∧
    ((2:ℚ) ≤ calculateSafeEndPoint ⟨1, 2, "a"⟩ [⟨1, 2, "a"⟩, ⟨3, 4, "b"⟩] ∧
      calculateSafeEndPoint ⟨1, 2, "a"⟩ [⟨1, 2, "a"⟩, ⟨3, 4, "b"⟩] ≤ 3) := by
  constructor
  · exact calcSafePoints_within_gap.1 [] [] ⟨1, 2, "a"⟩ ⟨3, 4, "b"⟩
      (by norm_num [List.pairwise_cons]) (by norm_num [List.chain'_cons]) (by norm_num)
  · exact calcSafePoints_within_gap.2 [] [] ⟨1, 2, "a"⟩ ⟨3, 4, "b"⟩
      (by norm_num [List.pairwise_cons]) (by norm_num [List.chain'_cons])

theorem assGroupsGo_nil (cut : ℚ) (prev : Option Word) (group : List Word) (c : ℕ) :
    assGroupsGo cut [] prev group c = if group.isEmpty then [] else [group] := rfl

theorem assGroupsGo_cons (cut : ℚ) (w : Word) (rest : List Word) (prev : Option Word)
    (group : List Word) (c : ℕ) :
    assGroupsGo cut (w :: rest) prev group c =
      if w.endTime < cut then assGroupsGo cut rest (some w) group c
      else if 25 < c + w.word.length ∨ bigGap prev w = true then
        (if group.isEmpty then [] else [group]) ++
          assGroupsGo cut rest (some w) [w] (w.word.length + 1)
      else assGroupsGo cut rest (some w) (group ++ [w]) (c + w.word.length + 1) := rfl

theorem flushGroup_mem {group g : List Word}
    (h : g ∈ if group.isEmpty then ([] : List (List Word)) else [group]) : g = group := by
  by_cases he : group.isEmpty
  · simp [he] at h
  · simp only [if_neg he, List.mem_singleton] at h
    exact h

theorem assGroupsGo_no_early_word {cut : ℚ} :
    ∀ (ws : List Word) (prev : Option Word) (group : List Word) (charCount : ℕ),
      (∀ w ∈ group, ¬ w.endTime < cut) →
      ∀ g ∈ assGroupsGo cut ws prev group charCount, ∀ w ∈ g, ¬ w.endTime < cut := by
  intro ws
  induction ws with
  | nil =>
    intro prev group charCount hg g hmem
    rw [assGroupsGo_nil] at hmem
    rw [flushGroup_mem hmem]
    exact hg
  | cons w rest ih =>
    intro prev group charCount hg g hmem
    rw [assGroupsGo_cons] at hmem
    by_cases hw : w.endTime < cut
    · rw [if_pos hw] at hmem
      exact ih (some w) group charCount hg g hmem
    · rw [if_neg hw] at hmem
      by_cases hbr : 25 < charCount + w.word.length ∨ bigGap prev w = true
      · rw [if_pos hbr] at hmem
        rcases List.mem_append.mp hmem with h1 | h2
        · rw [flushGroup_mem h1]
          exact hg
        · exact ih (some w) [w] (w.word.length + 1)
            (by intro v hv; rw [List.mem_singleton] at hv; subst hv; exact hw) g h2
      · rw [if_neg hbr] at hmem
        exact ih (some w) (group ++ [w]) (charCount + w.word.length + 1)
          (by
            intro v hv
            rcases List.mem_append.mp hv with h1 | h2
            · exact hg v h1
            · rw [List.mem_singleton] at h2; subst h2; exact hw) g hmem

theorem mem_of_getElem?_eq_some {α : Type} {l : List α} {i : ℕ} {a : α}
    (h : l[i]? = some a) : a ∈ l := by
  obtain ⟨hlt, rfl⟩ := List.getElem?_eq_some.mp h
  exact List.getElem_mem hlt

theorem flushGroup_mem_ne {group g : List Word}
    (h : g ∈ if group.isEmpty then ([] : List (List Word)) else [group]) :
    g = group ∧ group ≠ [] := by
  by_cases he : group.isEmpty
  · simp [he] at h
  · rw [if_neg he, List.mem_singleton] at h
    exact ⟨h, by simpa using he⟩

/-- Claim C3 counterexample: with the single word `[1, 2]` and
`cutStart = 2`, the karaoke generator does not skip the word
(`w.end < cutStart` is false) and emits a cue whose clamped offsets are
both `0`: a cue with `endOffset <= startOffset` is emitted rather than
dropped. -/
theorem assCue_degenerate_counterexample :
    ∃ cue ∈ generateAssCues [⟨1, 2, "hi"⟩] 2, cue.endOffset ≤ cue.startOffset := by
  refine ⟨⟨0, 0, [⟨1, 2, "hi"⟩]⟩, ?_, le_refl 0⟩
  norm_num [generateAssCues, assGroups, assGroupsGo_cons, assGroupsGo_nil, bigGap,
    assCueOfGroup]

/-- Claim C3 (amended): the plain SRT serialization never emits a block
with `relEnd <= relStart`, and each of its blocks comes from a word ending
strictly after `cutStart`; the karaoke serialization never places a word
with `end < cutStart` in any cue, but it does not drop degenerate cues, so
it can emit a cue with `endOffset <= startOffset`. -/
theorem caption_invariants (words : List Word) (c : ℚ) :
    (∀ cue ∈ generateSrtCues words c, cue.relStart < cue.relEnd) ∧
    (∀ cue ∈ generateSrtCues words c, ∃ w ∈ words, cue.text = w.word ∧ c < w.endTime) ∧
    (∀ cue ∈ generateAssCues words c, ∀ w ∈ cue.group, ¬ w.endTime < c) := by
  refine ⟨?_, ?_, ?_⟩
  · intro cue hcue
    obtain ⟨p, hp, hf⟩ := List.mem_filterMap.mp hcue
    by_cases hcond : max 0 (p.2.endTime - c) ≤ max 0 (p.2.start - c)
    · rw [if_pos hcond] at hf
      exact absurd hf (by simp)
    · rw [if_neg hcond] at hf
      obtain rfl := Option.some.inj hf
      exact lt_of_not_le hcond
  · intro cue hcue
    obtain ⟨p, hp, hf⟩ := List.mem_filterMap.mp hcue
    by_cases hcond : max 0 (p.2.endTime - c) ≤ max 0 (p.2.start - c)
    · rw [if_pos hcond] at hf
      exact absurd hf (by simp)
    · rw [if_neg hcond] at hf
      obtain rfl := Option.some.inj hf
      push_neg at hcond
      have hmem : p.2 ∈ words := by
        have := List.mk_mem_enum_iff_getElem?.mp (by
          rw [← Prod.mk.eta (p := p)] at hp
          exact hp)
        exact mem_of_getElem?_eq_some this
      refine ⟨p.2, hmem, rfl, ?_⟩
      by_contra hle
      push_neg at hle
      have : max 0 (p.2.endTime - c) = 0 := by
        rw [max_eq_left]
        linarith
      rw [this] at hcond
      exact absurd hcond (by simp [le_max_left])
  · intro cue hcue
    obtain ⟨g, hg, rfl⟩ := List.mem_map.mp hcue
    intro w hw
    exact assGroupsGo_no_early_word words none [] 0 (by simp) g hg w hw

/-- Witness for the amended C3 theorem: for the word `[1, 2]` with
`cutStart = 0` the emitted SRT block has `relStart < relEnd`. -/
theorem caption_invariants_witness :
    (⟨1, 1, 2, "a"⟩ : SrtCue).relStart < (⟨1, 1, 2, "a"⟩ : SrtCue).relEnd := by
  have h := (caption_invariants [⟨1, 2, "a"⟩] 0).1
  exact h ⟨1, 1, 2, "a"⟩
    (by norm_num [generateSrtCues, List.enum, List.enumFrom_cons, List.filterMap_cons])

theorem assGroupsGo_budget {cut : ℚ} :
    ∀ (ws : List Word) (prev : Option Word) (group : List Word) (c : ℕ),
      c = (group.map (fun w => w.word.length)).sum + group.length →
      (group = [] ∨ groupTextLength group ≤ 25 ∨ ∃ w, group = [w] ∧ 25 < w.word.length) →
      ∀ g ∈ assGroupsGo cut ws prev group c,
        groupTextLength g ≤ 25 ∨ ∃ w, g = [w] ∧ 25 < w.word.length := by
  intro ws
  induction ws with
  | nil =>
    intro prev group c hc hinv g hmem
    rw [assGroupsGo_nil] at hmem
    obtain ⟨rfl, hne⟩ := flushGroup_mem_ne hmem
    exact hinv.resolve_left hne
  | cons w rest ih =>
    intro prev group c hc hinv g hmem
    rw [assGroupsGo_cons] at hmem
    by_cases hw : w.endTime < cut
    · rw [if_pos hw] at hmem
      exact ih (some w) group c hc hinv g hmem
    · rw [if_neg hw] at hmem
      by_cases hbr : 25 < c + w.word.length ∨ bigGap prev w = true
      · rw [if_pos hbr] at hmem
        rcases List.mem_append.mp hmem with h1 | h2
        · obtain ⟨rfl, hne⟩ := flushGroup_mem_ne h1
          exact hinv.resolve_left hne
        · refine ih (some w) [w] (w.word.length + 1) (by simp) ?_ g h2
          by_cases hlen : w.word.length ≤ 25
          · exact Or.inr (Or.inl (by simp [groupTextLength, hlen]))
          · exact Or.inr (Or.inr ⟨w, rfl, by omega⟩)
      · rw [if_neg hbr] at hmem
        push_neg at hbr
        refine ih (some w) (group ++ [w]) (c + w.word.length + 1) ?_ ?_ g hmem
        · simp only [List.map_append, List.sum_append, List.length_append,
            List.map_cons, List.map_nil, List.sum_cons, List.sum_nil, List.length_cons,
            List.length_nil]
          omega
        · refine Or.inr (Or.inl ?_)
          simp only [groupTextLength, List.map_append, List.sum_append,
            List.length_append, List.map_cons, List.map_nil, List.sum_cons,
            List.sum_nil, List.length_cons, List.length_nil]
          omega

/-- Claim C7 counterexample: a single word whose text has 26 characters
forms its own cue, whose text length 26 exceeds the 25-character budget
with no pause involved. -/
theorem assGroups_budget_counterexample :
    assGroups [⟨0, 1, "abcdefghijklmnopqrstuvwxyz"⟩] 0 =
      [[⟨0, 1, "abcdefghijklmnopqrstuvwxyz"⟩]] ∧
    25 < groupTextLength [⟨0, 1, "abcdefghijklmnopqrstuvwxyz"⟩] := by
  have h26 : "abcdefghijklmnopqrstuvwxyz".length = 26 := rfl
  constructor
  · norm_num [assGroups, assGroupsGo_cons, assGroupsGo_nil, bigGap, h26]
  · simp [groupTextLength, h26]

/-- Claim C7 (amended): every emitted karaoke cue's text fits the
25-character budget unless the cue is a single word whose own text exceeds
the budget (the first word of a group is pushed without a budget check);
every later word is appended only when `charCount + len <= 25`. -/
theorem assGroups_budget (words : List Word) (cut : ℚ) :
    ∀ g ∈ assGroups words cut,
      groupTextLength g ≤ 25 ∨ ∃ w, g = [w] ∧ 25 < w.word.length :=
  fun g hg => assGroupsGo_budget words none [] 0 rfl (Or.inl rfl) g hg

/-- Witness for the amended C7 theorem on a one-word timeline. -/
theorem assGroups_budget_witness :
    groupTextLength [⟨0, 1, "a"⟩] ≤ 25 ∨
      ∃ w, ([⟨0, 1, "a"⟩] : List Word) = [w] ∧ 25 < w.word.length :=
  assGroups_budget [⟨0, 1, "a"⟩] 0 [⟨0, 1, "a"⟩]
    (by norm_num [assGroups, assGroupsGo_cons, assGroupsGo_nil, bigGap])

theorem chain_telescope (g : List Word)
    (hch : g.Chain' (fun a b => a.endTime = b.start)) : g ≠ [] →
    (g.map (fun w => w.endTime - w.start)).sum =
      (g.getLastD defaultWord).endTime - (g.headD defaultWord).start := by
  induction g with
  | nil => intro h; simp at h
  | cons w tl ih =>
    intro _
    cases tl with
    | nil => simp
    | cons v tl2 =>
      have h1 := (List.chain'_cons.mp hch).1
      have h2 := (List.chain'_cons.mp hch).2
      have hrec := ih h2 (by simp)
      simp only [List.map_cons, List.sum_cons] at hrec ⊢
      rw [List.getLastD_cons, List.getLastD_cons, List.headD_cons]
      rw [List.getLastD_cons] at hrec
      rw [List.headD_cons] at hrec
      rw [hrec, h1]
      ring

theorem sumKTags_rounding (g : List Word) :
    |(sumKTags g : ℚ) - 100 * (g.map (fun w => w.endTime - w.start)).sum| ≤
      (g.length : ℚ) / 2 := by
  induction g with
  | nil => simp [sumKTags]
  | cons w tl ih =>
    have h1 : |((kTag w : ℚ)) - 100 * (w.endTime - w.start)| ≤ 1/2 := by
      have h := abs_sub_round ((w.endTime - w.start) * 100)
      rw [abs_sub_comm] at h
      calc |((kTag w : ℚ)) - 100 * (w.endTime - w.start)|
          = |(round ((w.endTime - w.start) * 100) : ℚ) -
              (w.endTime - w.start) * 100| := by rw [kTag]; ring_nf
        _ ≤ 1/2 := h
    have hsplit : (sumKTags (w :: tl) : ℚ) -
        100 * ((w :: tl).map (fun u => u.endTime - u.start)).sum =
        (((kTag w : ℚ)) - 100 * (w.endTime - w.start)) +
          ((sumKTags tl : ℚ) - 100 * (tl.map (fun u => u.endTime - u.start)).sum) := by
      simp only [sumKTags, List.map_cons, List.sum_cons]
      push_cast
      ring
    rw [hsplit]
    calc |(((kTag w : ℚ)) - 100 * (w.endTime - w.start)) +
          ((sumKTags tl : ℚ) - 100 * (tl.map (fun u => u.endTime - u.start)).sum)|
        ≤ |((kTag w : ℚ)) - 100 * (w.endTime - w.start)| +
            |(sumKTags tl : ℚ) - 100 * (tl.map (fun u => u.endTime - u.start)).sum| :=
          abs_add _ _
      _ ≤ 1/2 + (tl.length : ℚ) / 2 := add_le_add h1 ih
      _ = ((w :: tl).length : ℚ) / 2 := by
          simp only [List.length_cons]
          push_cast
          ring

/-- Claim C6 counterexample: the words `[0, 1]` and `[1.4, 2]` stay in one
cue (their 0.4 s gap is under the 0.5 s pause threshold), whose karaoke
tags sum to 160 centiseconds while the cue spans 200 centiseconds: the sum
misses `(endOffset - startOffset) * 100` by 40, far more than one
centisecond. -/
theorem karaoke_sum_gap_counterexample :
    generateAssCues [⟨0, 1, "a"⟩, ⟨7/5, 2, "b"⟩] 0 =
      [⟨0, 2, [⟨0, 1, "a"⟩, ⟨7/5, 2, "b"⟩]⟩] ∧
    (sumKTags [⟨0, 1, "a"⟩, ⟨7/5, 2, "b"⟩] : ℚ) = 160 ∧
    ¬ (|(sumKTags [⟨0, 1, "a"⟩, ⟨7/5, 2, "b"⟩] : ℚ) - (2 - 0) * 100| ≤ 1) := by
  have ha : "a".length = 1 := rfl
  have hb : "b".length = 1 := rfl
  refine ⟨?_, ?_, ?_⟩
  · norm_num [generateAssCues, assGroups, assGroupsGo_cons, assGroupsGo_nil, bigGap,
      assCueOfGroup, ha, hb]
  · norm_num [sumKTags, kTag, round_eq]
  · rw [show (sumKTags [⟨0, 1, "a"⟩, ⟨7/5, 2, "b"⟩] : ℚ) = 160 by
      norm_num [sumKTags, kTag, round_eq]]
    rw [show ((160:ℚ) - (2 - 0) * 100) = -40 by norm_num]
    rw [abs_of_nonpos (by norm_num)]
    norm_num

/-- Claim C6 (amended): for an emitted karaoke cue whose words are
contiguous (each word ends exactly where the next begins), have
nonnegative durations, and start at or after the cut, the per-word tag sum
`sum of round((end - start) * 100)` differs from
`(endOffset - startOffset) * 100` by at most half a centisecond per word;
with inter-word gaps the sum falls short by the total gap, so the
one-centisecond bound of the original claim does not hold in general. -/
theorem karaoke_sum_within_rounding (words : List Word) (cut : ℚ) :
    ∀ cue ∈ generateAssCues words cut,
      cue.group ≠ [] →
      cut ≤ (cue.group.headD defaultWord).start →
      (∀ w ∈ cue.group, w.start ≤ w.endTime) →
      cue.group.Chain' (fun a b => a.endTime = b.start) →
      |(sumKTags cue.group : ℚ) - (cue.endOffset - cue.startOffset) * 100| ≤
        (cue.group.length : ℚ) / 2 := by
  intro cue hcue hne hcut hmono hch
  obtain ⟨g, hg, rfl⟩ := List.mem_map.mp hcue
  simp only [assCueOfGroup] at hne hcut hmono hch ⊢
  have htel := chain_telescope g hch hne
  have hsumnn : 0 ≤ (g.map (fun w => w.endTime - w.start)).sum := by
    apply List.sum_nonneg
    intro x hx
    obtain ⟨w, hw, rfl⟩ := List.mem_map.mp hx
    linarith [hmono w hw]
  have hlast : (g.headD defaultWord).start ≤ (g.getLastD defaultWord).endTime := by
    rw [htel] at hsumnn
    linarith
  have hstart : max 0 ((g.headD defaultWord).start - cut) =
      (g.headD defaultWord).start - cut := max_eq_right (by linarith)
  have hend : max 0 ((g.getLastD defaultWord).endTime - cut) =
      (g.getLastD defaultWord).endTime - cut := max_eq_right (by linarith)
  rw [hstart, hend]
  have hspan : ((g.getLastD defaultWord).endTime - cut) -
      ((g.headD defaultWord).start - cut) =
      (g.map (fun w => w.endTime - w.start)).sum := by
    rw [htel]; ring
  rw [hspan]
  rw [mul_comm]
  exact sumKTags_rounding g

/-- Witness for the amended C6 theorem: two contiguous words `[0,1]`,
`[1,2]` form one cue whose tag sum matches the span exactly. -/
theorem karaoke_sum_within_rounding_witness :
    |(sumKTags [⟨0, 1, "a"⟩, ⟨1, 2, "b"⟩] : ℚ) -
        (((⟨0, 2, [⟨0, 1, "a"⟩, ⟨1, 2, "b"⟩]⟩ : AssCue).endOffset -
          (⟨0, 2, [⟨0, 1, "a"⟩, ⟨1, 2, "b"⟩]⟩ : AssCue).startOffset)) * 100| ≤
      ((([⟨0, 1, "a"⟩, ⟨1, 2, "b"⟩] : List Word).length : ℚ)) / 2 := by
  have h := karaoke_sum_within_rounding [⟨0, 1, "a"⟩, ⟨1, 2, "b"⟩] 0
    ⟨0, 2, [⟨0, 1, "a"⟩, ⟨1, 2, "b"⟩]⟩
    (by
      have ha : "a".length = 1 := rfl
      have hb : "b".length = 1 := rfl
      norm_num [generateAssCues, assGroups, assGroupsGo_cons, assGroupsGo_nil,
        bigGap, assCueOfGroup, ha, hb])
    (by simp)
    (by norm_num)
    (by
      intro w hw
      simp only [List.mem_cons, List.not_mem_nil, or_false] at hw
      rcases hw with rfl | rfl <;> norm_num)
    (by norm_num [List.chain'_cons])
  exact h

theorem mem_generateSrtCues {words : List Word} {c : ℚ} {cue : SrtCue} :
    cue ∈ generateSrtCues words c ↔
      ∃ i w, words[i]? = some w ∧
        max 0 (w.start - c) < max 0 (w.endTime - c) ∧
        cue = ⟨i + 1, max 0 (w.start - c), max 0 (w.endTime - c), w.word⟩ := by
  rw [generateSrtCues, List.mem_filterMap]
  constructor
  · rintro ⟨p, hp, hf⟩
    by_cases hcond : max 0 (p.2.endTime - c) ≤ max 0 (p.2.start - c)
    · rw [if_pos hcond] at hf
      exact absurd hf (by simp)
    · rw [if_neg hcond] at hf
      refine ⟨p.1, p.2, ?_, lt_of_not_le hcond, (Option.some.inj hf).symm⟩
      exact List.mk_mem_enum_iff_getElem?.mp (by rw [← Prod.mk.eta (p := p)] at hp; exact hp)
  · rintro ⟨i, w, hw, hlt, rfl⟩
    refine ⟨(i, w), List.mk_mem_enum_iff_getElem?.mpr hw, ?_⟩
    rw [if_neg (not_le.mpr hlt)]

theorem mem_generateSrtCues002 {words : List Word} {c : ℚ} {cue : SrtCue} :
    cue ∈ generateSrtCues002 words c ↔
      ∃ i w, words[i]? = some w ∧
        ¬ (w.start - c < 0 ∨ w.endTime - c < 0) ∧
        cue = ⟨i + 1, w.start - c, w.endTime - c, w.word⟩ := by
  rw [generateSrtCues002, List.mem_filterMap]
  constructor
  · rintro ⟨p, hp, hf⟩
    by_cases hcond : p.2.start - c < 0 ∨ p.2.endTime - c < 0
    · rw [if_pos hcond] at hf
      exact absurd hf (by simp)
    · rw [if_neg hcond] at hf
      refine ⟨p.1, p.2, ?_, hcond, (Option.some.inj hf).symm⟩
      exact List.mk_mem_enum_iff_getElem?.mp (by rw [← Prod.mk.eta (p := p)] at hp; exact hp)
  · rintro ⟨i, w, hw, hcond, rfl⟩
    refine ⟨(i, w), List.mk_mem_enum_iff_getElem?.mpr hw, ?_⟩
    rw [if_neg hcond]

/-- Claim C10: each emitted SRT block is numbered `1 + index of its word
in the input array`; a number appears exactly when its word is kept (in
the precise-cut variant: clamped `relEnd > relStart`; in the part_002
variant: both offsets nonnegative); every dropped word of either variant
has raw `relEnd <= relStart` or a negative offset; on the two example
lists the emitted numbers are `[2, 4]`: non-consecutive and not starting
at 1. -/
theorem srt_numbering (words : List Word) (c : ℚ) :
    (∀ i w, words[i]? = some w →
      (((∃ cue ∈ generateSrtCues words c, cue.num = i + 1)) ↔
        max 0 (w.start - c) < max 0 (w.endTime - c)) ∧
      (¬ max 0 (w.start - c) < max 0 (w.endTime - c) →
        (w.endTime - c ≤ w.start - c ∨ w.start - c < 0 ∨ w.endTime - c < 0)) ∧
      ((∃ cue ∈ generateSrtCues002 words c, cue.num = i + 1) ↔
        (0 ≤ w.start - c ∧ 0 ≤ w.endTime - c))) ∧
    (generateSrtCues c10Words 0).map SrtCue.num = [2, 4] ∧
    (generateSrtCues002 c10Words002 3).map SrtCue.num = [2, 4] := by
  refine ⟨?_, ?_, ?_⟩
  · intro i w hw
    refine ⟨?_, ?_, ?_⟩
    · constructor
      · rintro ⟨cue, hcue, hnum⟩
        obtain ⟨j, v, hv, hlt, rfl⟩ := mem_generateSrtCues.mp hcue
        have hij : j = i := by simpa using hnum
        subst hij
        rw [hw] at hv
        obtain rfl := Option.some.inj hv
        exact hlt
      · intro hlt
        exact ⟨⟨i + 1, max 0 (w.start - c), max 0 (w.endTime - c), w.word⟩,
          mem_generateSrtCues.mpr ⟨i, w, hw, hlt, rfl⟩, rfl⟩
    · intro hnlt
      push_neg at hnlt
      by_cases h1 : w.endTime - c ≤ w.start - c
      · exact Or.inl h1
      · push_neg at h1
        by_cases h2 : w.endTime - c ≤ 0
        · refine Or.inr (Or.inl ?_)
          linarith
        · push_neg at h2
          have hmax : max 0 (w.endTime - c) = w.endTime - c := max_eq_right (le_of_lt h2)
          rw [hmax] at hnlt
          rcases max_cases (0:ℚ) (w.start - c) with ⟨hm, hle⟩ | ⟨hm, hlt2⟩
          · rw [hm] at hnlt
            exfalso
            linarith
          · rw [hm] at hnlt
            exfalso
            linarith
    · constructor
      · rintro ⟨cue, hcue, hnum⟩
        obtain ⟨j, v, hv, hcond, rfl⟩ := mem_generateSrtCues002.mp hcue
        have hij : j = i := by simpa using hnum
        subst hij
        rw [hw] at hv
        obtain rfl := Option.some.inj hv
        push_neg at hcond
        exact ⟨le_of_not_lt (by linarith [hcond.1]), le_of_not_lt (by linarith [hcond.2])⟩
      · rintro ⟨h1, h2⟩
        refine ⟨⟨i + 1, w.start - c, w.endTime - c, w.word⟩,
          mem_generateSrtCues002.mpr ⟨i, w, hw, ?_, rfl⟩, rfl⟩
        push_neg
        exact ⟨h1, h2⟩
  · norm_num [generateSrtCues, c10Words, List.enum, List.enumFrom_cons,
      List.filterMap_cons]
  · norm_num [generateSrtCues002, c10Words002, List.enum, List.enumFrom_cons,
      List.filterMap_cons]

/-- Witness for the C10 theorem: in the precise-cut variant, word 1 of the
example list is kept, so number 2 is emitted. -/
theorem srt_numbering_witness :
    ∃ cue ∈ generateSrtCues c10Words 0, cue.num = 1 + 1 := by
  have h := (srt_numbering c10Words 0).1 1 ⟨0, 1, "a"⟩ (by norm_num [c10Words])
  exact h.1.mpr (by norm_num)

/-- Claim C5 counterexample: the first replace rewrites every backslash to
a forward slash, so the distinct paths `a\b` and `a/b` escape to the same
string; no unescape can recover both, hence `unescape(escape(p)) = p`
fails for paths containing a backslash. -/
theorem escapedPath_not_injective :
    escapedPath ['a', '\\', 'b'] = escapedPath ['a', '/', 'b'] ∧
    (['a', '\\', 'b'] : List Char) ≠ ['a', '/', 'b'] := by
  constructor
  · rfl
  · decide

theorem escapeColons_cons (ch : Char) (rest : List Char) :
    escapeColons (ch :: rest) =
      (if ch = ':' then ['\\', ':'] else [ch]) ++ escapeColons rest := by
  rw [escapeColons, List.map_cons, List.flatten_cons, escapeColons]

theorem escapeColons_ne_nil (ch : Char) (rest : List Char) :
    escapeColons (ch :: rest) ≠ [] := by
  rw [escapeColons_cons]
  by_cases hc : ch = ':' <;> simp [hc]

/-- Claim C5 (amended): for a path free of backslashes, colon escaping
round-trips: reversing the escape rules recovers the original text (the
characters quote, semicolon and percent are passed through unchanged); a
path containing a backslash is collapsed irreversibly with the
forward-slash form, so the round trip fails there. -/
theorem unescape_escapedPath (s : List Char) (h : '\\' ∉ s) :
    unescapeColons (escapedPath s) = s := by
  have hmap : escapeBackslashes s = s := by
    rw [escapeBackslashes]
    refine (List.map_congr_left ?_).trans (List.map_id s)
    intro ch hch
    have hne : ch ≠ '\\' := by
      intro he
      subst he
      exact h hch
    simp [hne]
  rw [escapedPath, hmap]
  clear hmap
  induction s with
  | nil => rfl
  | cons ch rest ih =>
    have hch : ch ≠ '\\' := fun he => h (he ▸ List.mem_cons_self ch rest)
    have hrest : '\\' ∉ rest := fun hm => h (List.mem_cons_of_mem _ hm)
    rw [escapeColons_cons]
    by_cases hc : ch = ':'
    · subst hc
      rw [if_pos rfl]
      show unescapeColons ('\\' :: ':' :: escapeColons rest) = ':' :: rest
      rw [unescapeColons, if_pos ⟨rfl, rfl⟩, ih hrest]
    · rw [if_neg hc]
      cases he : escapeColons rest with
      | nil =>
        cases rest with
        | nil => rfl
        | cons x xs => exact absurd he (escapeColons_ne_nil x xs)
      | cons e1 e2 =>
        show unescapeColons (ch :: e1 :: e2) = ch :: rest
        rw [unescapeColons, if_neg (by intro hand; exact hch hand.1), ← he, ih hrest]

/-- Witness for the amended C5 theorem: a backslash-free path containing
colon, semicolon and percent round-trips. -/
theorem unescape_escapedPath_witness :
    unescapeColons (escapedPath ['a', ':', ';', '%']) = ['a', ':', ';', '%'] :=
  unescape_escapedPath ['a', ':', ';', '%'] (by decide)

theorem downloadEmitsGo_nil (total downloaded last : ℚ) :
    downloadEmitsGo total [] downloaded last = [] := rfl

theorem downloadEmitsGo_cons (total : ℚ) (len : ℕ) (rest : List ℕ)
    (downloaded last : ℚ) :
    downloadEmitsGo total (len :: rest) downloaded last =
      if total ≠ 0 then
        if 10 < (downloaded + len) / total * 100 - last then
          (downloaded + len) / total * 100 ::
            downloadEmitsGo total rest (downloaded + len) ((downloaded + len) / total * 100)
        else downloadEmitsGo total rest (downloaded + len) last
      else downloadEmitsGo total rest (downloaded + len) last := rfl

theorem renderEmitsGo_nil (duration last : ℚ) :
    renderEmitsGo duration [] last = [] := rfl

theorem renderEmitsGo_cons (duration t : ℚ) (rest : List ℚ) (last : ℚ) :
    renderEmitsGo duration (t :: rest) last =
      if 5 < min 100 (t / duration * 100) - last then
        min 100 (t / duration * 100) ::
          renderEmitsGo duration rest (min 100 (t / duration * 100))
      else renderEmitsGo duration rest last := rfl

/-- Claim C4 counterexample: the download loop does not clamp its raw
percentage; when the reported bytes exceed the `content-length` (here one
250-byte chunk against a stated total of 100), it emits a raw 250 %, which
the handler maps to 62.5 — outside the download stage's 50-55 sub-range. -/
theorem download_exceeds_subrange :
    downloadEmits [250] 100 = [250] ∧
    downloadGlobal 250 = 125/2 ∧
    ¬ downloadGlobal 250 ≤ 55 := by
  refine ⟨?_, ?_, ?_⟩ <;>
    norm_num [downloadEmits, downloadEmitsGo_cons, downloadEmitsGo_nil, downloadGlobal]

theorem renderEmitsGo_bounds (duration : ℚ) :
    ∀ (times : List ℚ), (∀ t ∈ times, 0 ≤ t) → 0 < duration →
      ∀ (last : ℚ), 0 ≤ last →
        ∀ p ∈ renderEmitsGo duration times last, 5 < p ∧ p ≤ 100 := by
  intro times
  induction times with
  | nil =>
    intro _ _ last _ p hp
    rw [renderEmitsGo_nil] at hp
    simp at hp
  | cons t rest ih =>
    intro hts hd last hlast p hp
    have ht0 : 0 ≤ t := hts t (List.mem_cons_self t rest)
    have hpct : 0 ≤ min 100 (t / duration * 100) := by
      refine le_min (by norm_num) ?_
      positivity
    rw [renderEmitsGo_cons] at hp
    by_cases hcond : 5 < min 100 (t / duration * 100) - last
    · rw [if_pos hcond] at hp
      rcases List.mem_cons.mp hp with rfl | hp'
      · exact ⟨by linarith, min_le_left _ _⟩
      · exact ih (fun u hu => hts u (List.mem_cons_of_mem _ hu)) hd _ hpct p hp'
    · rw [if_neg hcond] at hp
      exact ih (fun u hu => hts u (List.mem_cons_of_mem _ hu)) hd last hlast p hp

theorem renderEmitsGo_chain (duration : ℚ) :
    ∀ (times : List ℚ) (last : ℚ),
      (renderEmitsGo duration times last).Chain' (fun a b => a + 5 < b) ∧
      (∀ p ∈ renderEmitsGo duration times last, last + 5 < p) := by
  intro times
  induction times with
  | nil =>
    intro last
    rw [renderEmitsGo_nil]
    exact ⟨List.chain'_nil, by simp⟩
  | cons t rest ih =>
    intro last
    rw [renderEmitsGo_cons]
    by_cases hcond : 5 < min 100 (t / duration * 100) - last
    · rw [if_pos hcond]
      obtain ⟨ihc, ihm⟩ := ih (min 100 (t / duration * 100))
      constructor
      · rw [List.chain'_cons']
        refine ⟨?_, ihc⟩
        intro y hy
        have hmem : y ∈ renderEmitsGo duration rest (min 100 (t / duration * 100)) :=
          List.mem_of_mem_head? hy
        linarith [ihm y hmem]
      · intro p hp
        rcases List.mem_cons.mp hp with rfl | hp'
        · linarith
        · linarith [ihm p hp']
    · rw [if_neg hcond]
      exact ih last

theorem downloadEmitsGo_chain (total : ℚ) :
    ∀ (chunks : List ℕ) (downloaded last : ℚ),
      (downloadEmitsGo total chunks downloaded last).Chain' (fun a b => a + 10 < b) ∧
      (∀ p ∈ downloadEmitsGo total chunks downloaded last, last + 10 < p) := by
  intro chunks
  induction chunks with
  | nil =>
    intro downloaded last
    rw [downloadEmitsGo_nil]
    exact ⟨List.chain'_nil, by simp⟩
  | cons len rest ih =>
    intro downloaded last
    rw [downloadEmitsGo_cons]
    by_cases h0 : total ≠ 0
    · rw [if_pos h0]
      by_cases hcond : 10 < (downloaded + len) / total * 100 - last
      · rw [if_pos hcond]
        obtain ⟨ihc, ihm⟩ := ih (downloaded + len) ((downloaded + len) / total * 100)
        constructor
        · rw [List.chain'_cons']
          refine ⟨?_, ihc⟩
          intro y hy
          have hmem := List.mem_of_mem_head? hy
          linarith [ihm y hmem]
        · intro p hp
          rcases List.mem_cons.mp hp with rfl | hp'
          · linarith
          · linarith [ihm p hp']
      · rw [if_neg hcond]
        exact ih (downloaded + len) last
    · rw [if_neg h0]
      exact ih (downloaded + len) last

/-- Claim C4 (amended): render-stage progress clamps the raw percentage
above at 100 (it is positive because parsed times are nonnegative), so
every render callback maps into the 55-95 sub-range; consecutive reported
values of a stage always differ by more than the stage threshold (5 render,
10 download); the download stage does not clamp, so its callbacks can leave
the 50-55 sub-range when the received bytes exceed the stated total. -/
theorem progress_emissions (times : List ℚ) (duration : ℚ) (chunks : List ℕ)
    (total : ℚ) (hd : 0 < duration) (ht : ∀ t ∈ times, 0 ≤ t) :
    (∀ p ∈ renderEmits times duration,
      5 < p ∧ p ≤ 100 ∧ 55 < renderGlobal p ∧ renderGlobal p ≤ 95) ∧
    (renderEmits times duration).Chain' (fun a b => a + 5 < b) ∧
    (downloadEmits chunks total).Chain' (fun a b => a + 10 < b) := by
  refine ⟨?_, (renderEmitsGo_chain duration times 0).1,
    (downloadEmitsGo_chain total chunks 0 0).1⟩
  intro p hp
  obtain ⟨h5, h100⟩ := renderEmitsGo_bounds duration times ht hd 0 le_rfl p hp
  refine ⟨h5, h100, ?_, ?_⟩ <;> rw [renderGlobal] <;> nlinarith

/-- Witness for the amended C4 theorem: parsed times `[1, 2]` over a 2 s
render and two 50-byte chunks of a 100-byte download. -/
theorem progress_emissions_witness :
    (∀ p ∈ renderEmits [1, 2] 2,
      5 < p ∧ p ≤ 100 ∧ 55 < renderGlobal p ∧ renderGlobal p ≤ 95) ∧
    (renderEmits [1, 2] 2).Chain' (fun a b => a + 5 < b) ∧
    (downloadEmits [50, 50] 100).Chain' (fun a b => a + 10 < b) :=
  progress_emissions [1, 2] 2 [50, 50] 100 (by norm_num)
    (by
      intro t htm
      simp only [List.mem_cons, List.not_mem_nil, or_false] at htm
      rcases htm with rfl | rfl <;> norm_num)

/-- Claim C9: when `rawStart >= 0.10`, the loose-cut strategy resolves the
start to `max(0, rawStart - 0.10) = rawStart - 0.10` and the duration to
`requestedDuration + PAD_START + PAD_END = requestedDuration + 0.35`. -/
theorem looseCut_padding (reqStart reqDuration : ℚ) (h : 1/10 ≤ reqStart) :
    looseCutFinalStart reqStart = max 0 (reqStart - 1/10) ∧
    looseCutFinalStart reqStart = reqStart - 1/10 ∧
    looseCutFinalDuration reqStart reqDuration = reqDuration + 1/10 + 1/4 := by
  have h1 : looseCutFinalStart reqStart = reqStart - 1/10 := by
    rw [looseCutFinalStart]
    exact max_eq_right (by linarith)
  refine ⟨rfl, h1, ?_⟩
  rw [looseCutFinalDuration, h1]
  ring

/-- Witness for the C9 theorem at `reqStart = 5`, `reqDuration = 2`. -/
theorem looseCut_padding_witness :
    looseCutFinalStart 5 = max 0 (5 - 1/10) ∧
    looseCutFinalStart 5 = 5 - 1/10 ∧
    looseCutFinalDuration 5 2 = 2 + 1/10 + 1/4 :=
  looseCut_padding 5 2 (by norm_num)

/-- Witness for the amended C2 theorem: with the single word `[1, 2]` and
window `[1, 3]`, both anchors exist and the anchor step succeeds. -/
theorem resolveAnchors_ok_iff_witness :
    (resolveAnchors 1 3 ([⟨1, 2, "a"⟩] : List Word)).isOk = true ↔
      ((∃ w ∈ ([⟨1, 2, "a"⟩] : List Word), (1:ℚ) - 1/20 ≤ w.start) ∧
        (∃ w ∈ ([⟨1, 2, "a"⟩] : List Word), w.endTime ≤ (3:ℚ) + 1/20)) :=
  resolveAnchors_ok_iff 1 3 [⟨1, 2, "a"⟩]
